import Mathlib

/-!
Verification of the uxt action protocol and execution engine.

This file gives a shallow embedding, in Lean, of the core of the
repository: the edit executor (`src/editor.py`), the response parser and
the edit/run handlers (`src/cli.py`), the codebase cache
(`src/cli.py`), and the outline store (`src/outline.py`).  Pure Python
functions become Lean functions; filesystem state becomes an explicit
record of path-to-content bindings threaded through the operations;
the outcome of a launched subprocess becomes an explicit input.  The
theorems at the end of the file settle the specification claims
against these definitions.

Conventions used throughout:
* Python strings are modelled as `String` / `List Char`; the Python
  `str` helpers used by the code (`strip`, `lower`, `startswith`,
  `splitlines`, substring tests) are reimplemented below on
  `List Char`.  `lower` and `strip` are modelled on the ASCII
  characters the code actually manipulates.
* A Python dict is modelled as an association list with
  overwrite-on-assignment update (`updMap`) and first-match lookup
  (`lookupS`).
* Fallible operations return an explicit success flag (matching the
  Python functions, which return `True`/`False`), and a Python
  exception that escapes a function is an `Except.error`.
-/

/-- Association-list lookup, modelling Python `dict` access / `in`. -/
def lookupS {α : Type} : List (String × α) → String → Option α
  | [], _ => none
  | (k, v) :: rest, key => if k = key then some v else lookupS rest key

/-- Association-list update, modelling Python `d[k] = v` (overwrite or add). -/
def updMap {α : Type} : List (String × α) → String → α → List (String × α)
  | [], k, v => [(k, v)]
  | (k1, v1) :: rest, k, v =>
      if k1 = k then (k, v) :: rest else (k1, v1) :: updMap rest k v

/-- The backquote character that opens and closes Markdown code fences. -/
def bq : Char := Char.ofNat 96

/-- ASCII letter, the character class `[a-zA-Z]` of the fence regex. -/
def isAsciiLetter (c : Char) : Bool :=
  (decide ('a' ≤ c) && decide (c ≤ 'z')) || (decide ('A' ≤ c) && decide (c ≤ 'Z'))

/-- Whitespace as stripped by Python `str.strip()` (the ASCII part). -/
def pyIsSpace (c : Char) : Bool :=
  c = ' ' || c = '\t' || c = '\n' || c = '\r' || c = Char.ofNat 11 || c = Char.ofNat 12

/-- Python `str.strip()`: drop whitespace from both ends (right end first,
then the left end; the order is immaterial). -/
def pyStrip (l : List Char) : List Char :=
  ((l.reverse.dropWhile pyIsSpace).reverse).dropWhile pyIsSpace

/-- Python `str.strip(chars)`: drop characters of the set `cs` from both ends. -/
def stripChars (cs : List Char) (l : List Char) : List Char :=
  ((l.reverse.dropWhile (fun c => cs.contains c)).reverse).dropWhile
    (fun c => cs.contains c)

/-- Python `str.lower()`, on the ASCII letters the markers consist of. -/
def lowerChars (l : List Char) : List Char := l.map Char.toLower

/-- Bool-valued list-prefix test (Python `str.startswith`). -/
def isPrefixCharList : List Char → List Char → Bool
  | [], _ => true
  | _ :: _, [] => false
  | a :: as, b :: bs => a = b && isPrefixCharList as bs

/-- Bool-valued substring test (Python `sub in s`). -/
def isSubstrList (needle : List Char) : List Char → Bool
  | [] => isPrefixCharList needle []
  | l@(_ :: rest) => isPrefixCharList needle l || isSubstrList needle rest

/-- Does this suffix of a path start with a full `..` path segment
(`..` at the very end or followed by a separator)? -/
def startsParentSeg : List Char → Bool
  | '.' :: '.' :: [] => true
  | '.' :: '.' :: '/' :: _ => true
  | _ => false

/-- Scan for a `..` segment; `atSeg` records whether the current
position is the start of a path segment (position 0 or after `/`). -/
def hasParentSegmentAux : Bool → List Char → Bool
  | _, [] => false
  | atSeg, c :: rest =>
      (atSeg && startsParentSeg (c :: rest)) || hasParentSegmentAux (c = '/') rest

/-- The path contains a parent-directory traversal segment: a `..`
component delimited by the start of the path, `/`, or the end. -/
def hasParentSegment (l : List Char) : Bool := hasParentSegmentAux true l

/-- Python `str.splitlines()` restricted to `\n` separators: each `\n`
terminates a line; a final segment without a trailing newline is kept,
an empty final segment is not. -/
def splitlinesGo : List Char → List Char → List (List Char)
  | [], cur => if cur.isEmpty then [] else [cur]
  | c :: rest, cur =>
      if c = '\n' then cur :: splitlinesGo rest [] else splitlinesGo rest (cur ++ [c])

/-- Python `str.splitlines()` (newline separators). -/
def splitlines (l : List Char) : List (List Char) := splitlinesGo l []

/-- Python `"\n".join(lines)`. -/
def joinNL : List (List Char) → List Char
  | [] => []
  | [l] => l
  | l :: rest => l ++ '\n' :: joinNL rest

/-- Python `next((i for i, l in enumerate(lines) if p(l)), None)`. -/
def findIdxS {α : Type} (p : α → Bool) : List α → Option Nat
  | [] => none
  | x :: rest => if p x then some 0 else (findIdxS p rest).map (· + 1)

/-- Python `str.strip()` lifted to `String`. -/
def pyStripStr (s : String) : String := ⟨pyStrip s.data⟩

/-! ## `src/editor.py` -/

/-- After the three backquotes of `sanitize_code_content`'s regex
alternative ```` ^```[a-zA-Z]*\n ````: consume letters greedily, then
require a newline; return the rest of the input after the newline. -/
def matchLangNewline : List Char → Option (List Char)
  | [] => none
  | c :: cs =>
      if c = '\n' then some cs
      else if isAsciiLetter c then matchLangNewline cs
      else none

/-- Consume exactly three backquotes at the head of the input. -/
def takeTripleBq : List Char → Option (List Char)
  | a :: b :: c :: rest => if a = bq && b = bq && c = bq then some rest else none
  | _ => none

/-- One left-to-right pass of
`re.sub(r"^```[a-zA-Z]*\n|```$", "", content, flags=re.MULTILINE)`:
at each position try alternative A (at a line start: three backquotes,
a letter-only language tag, a newline — the whole line is removed) and
then alternative B (three backquotes immediately before a newline or
the end of input — the backquotes are removed); on failure emit one
character and continue.  `atStart` tracks whether the current position
is at a line start (position 0 or right after a newline); `fuel`
bounds the recursion and every call site supplies at least the length
of the input, which each step strictly decreases. -/
def fenceSubF : Nat → Bool → List Char → List Char
  | 0, _, l => l
  | _ + 1, _, [] => []
  | fuel + 1, atStart, c :: rest =>
    match takeTripleBq (c :: rest) with
    | some r3 =>
      match (if atStart then matchLangNewline r3 else none) with
      | some r4 => fenceSubF fuel true r4
      | none =>
        match r3 with
        | [] => []
        | nl :: rs =>
            if nl = '\n' then '\n' :: fenceSubF fuel true rs
            else bq :: fenceSubF fuel false (bq :: bq :: nl :: rs)
    | none => c :: fenceSubF fuel (c = '\n') rest

/-- Line-start tracking of `fenceSubF` after a block of characters has
been emitted: the position after the block is a line start exactly
when the block's last character is a newline (or the block is empty
and the position before it was a line start). -/
def lineStartAfter : List Char → Bool → Bool
  | [], b => b
  | c :: rest, _ => lineStartAfter rest (c = '\n')

/-- `sanitize_code_content` (`src/editor.py`): remove Markdown code
fences with the multiline regex substitution, then `str.strip()`. -/
def sanitize_code_content (content : String) : String :=
  ⟨pyStrip (fenceSubF content.data.length true content.data)⟩

/-- Filesystem state for the edit executor.  `files` maps a path to
the content of the file stored there; `copyFail` is the set of
destination paths at which `shutil.copy2` raises; `writeFail` the set
of paths at which `open(path, "w")` raises. -/
structure FS where
  files : List (String × String)
  copyFail : List String
  writeFail : List String
deriving DecidableEq

/-- `backup_file` (`src/editor.py`): copy `filepath` to
`filepath + ".bak"`; every exception (source missing, copy failure) is
caught and only logged. -/
def backup_file (fs : FS) (filepath : String) : FS :=
  match lookupS fs.files filepath with
  | none => fs
  | some content =>
      if (filepath ++ ".bak") ∈ fs.copyFail then fs
      else { fs with files := updMap fs.files (filepath ++ ".bak") content }

/-- `apply_edit` (`src/editor.py`): refuse if the target does not
exist, otherwise back up the current file and overwrite it with
`new_content`; a write failure is caught and reported as `false`. -/
def apply_edit (fs : FS) (filepath new_content : String) : FS × Bool :=
  match lookupS fs.files filepath with
  | none => (fs, false)
  | some _ =>
      let fs1 := backup_file fs filepath
      if filepath ∈ fs1.writeFail then (fs1, false)
      else ({ fs1 with files := updMap fs1.files filepath new_content }, true)

/-- Outcome of handing a command line to the shell: the subprocess ran
and exited with a code, or the OS-level launch itself failed
(`subprocess.run` raised an `OSError`). -/
inductive ProcOutcome where
  | exited (code : Nat)
  | launchFailed (msg : String)
deriving DecidableEq

/-- `run_shell_command` (`src/editor.py`): `subprocess.run(command,
shell=True, check=True)`; a non-zero exit raises `CalledProcessError`,
which is caught and reported as `false`; an OS-level launch failure
raises an exception that this function does not catch. -/
def run_shell_command (proc : ProcOutcome) : Except String Bool :=
  match proc with
  | .exited code => if code = 0 then .ok true else .ok false
  | .launchFailed msg => .error msg

/-! ## `src/cli.py`: response parsing and the edit / run handlers -/

/-- The tagged action produced by `ResponseHandler.parse_response` (named `ParsedAction` because Mathlib already uses `Action`). -/
inductive ParsedAction where
  | outline (tasks : List String)
  | edit (filepath content : String)
  | run (command : String)
deriving DecidableEq

/-- Python `l.lower().startswith(marker)`: the marker test
`parse_response` applies to each (untrimmed) line. -/
def lineMatches (marker : List Char) (l : List Char) : Bool :=
  isPrefixCharList marker (lowerChars l)

/-- The line list `parse_response` scans:
`response.strip().splitlines()` — the response as a whole is stripped,
the individual lines are not. -/
def pyLines (response : String) : List (List Char) :=
  splitlines (pyStrip response.data)

/-- `ResponseHandler.parse_response` (`src/cli.py`): find the first
line starting (case-insensitively, untrimmed) with each of the three
markers; dispatch on `outline:` first, then `edit:`, then `run:`.
For `outline:`, every line of the response starting with `"- "` is a
task title, stripped of surrounding dashes/spaces.  For `edit:`, the
path is the rest of the marker line and the content is all following
lines joined with newlines.  For `run:`, the command is the rest of
the marker line.  Otherwise no action. -/
def parse_response (response : String) : Option ParsedAction :=
  let lines := pyLines response
  let outline_index := findIdxS (lineMatches "outline:".data) lines
  let edit_index := findIdxS (lineMatches "edit:".data) lines
  let run_index := findIdxS (lineMatches "run:".data) lines
  match outline_index with
  | some _ =>
      some (.outline ((lines.filter (fun l => isPrefixCharList "- ".data l)).map
        (fun l => ⟨pyStrip (stripChars "- ".data l)⟩)))
  | none =>
    match edit_index with
    | some i =>
        some (.edit ⟨pyStrip ((lines.getD i []).drop 5)⟩
                    ⟨joinNL (lines.drop (i + 1))⟩)
    | none =>
      match run_index with
      | some i => some (.run ⟨pyStrip ((lines.getD i []).drop 4)⟩)
      | none => none

/-- `ResponseHandler.handle_edit` (`src/cli.py`): sanitize the
content, validate the path (reject empty paths, absolute paths, and
paths containing `".."`), read the current file for the preview diff,
and on user confirmation run `apply_edit`.  The result records the
handler's return value, the filesystem afterwards, and the list of
paths it read (for the preview). -/
def handle_edit (fs : FS) (filepath raw_content : String) (confirm : Bool) :
    Bool × FS × List String :=
  let new_content := sanitize_code_content raw_content
  if filepath.data.isEmpty || isPrefixCharList ['/'] filepath.data
      || isSubstrList ['.', '.'] filepath.data then
    (false, fs, [])
  else
    let reads := match lookupS fs.files filepath with
      | some _ => [filepath]
      | none => []
    if confirm then
      let r := apply_edit fs filepath new_content
      (r.2, r.1, reads)
    else (false, fs, reads)

/-- The hardcoded deny-signal list of `ResponseHandler.handle_run`. -/
def dangerous_patterns : List String :=
  ["rm -rf", "del /s", "format", "mkfs", "dd if="]

deriving instance DecidableEq for Except

/-- Result of `ResponseHandler.handle_run`: whether the command was
actually handed to the shell, and the value the handler returns (an
`Except.error` models the launch exception escaping uncaught). -/
structure RunOutcome where
  executed : Bool
  result : Except String Bool
deriving DecidableEq

/-- `ResponseHandler.handle_run` (`src/cli.py`): if the lowercased
command contains a deny-list substring, demand an extra confirmation
(`confirm_danger`) and refuse when it is not given; then demand the
normal confirmation (`confirm_run`) and execute the command only if it
is given. -/
def handle_run (command : String) (confirm_danger confirm_run : Bool)
    (proc : ProcOutcome) : RunOutcome :=
  if (dangerous_patterns.any fun pat =>
        isSubstrList pat.data (lowerChars command.data)) && !confirm_danger then
    ⟨false, .ok false⟩
  else if confirm_run then
    ⟨true, run_shell_command proc⟩
  else ⟨false, .ok false⟩

/-! ## `src/cli.py`: the codebase cache -/

/-- `CodebaseCache` (`src/cli.py`): `cache` maps a path to its stored
content and `mtimes` to the last-observed modification time. -/
structure CodebaseCache where
  cache : List (String × String)
  mtimes : List (String × Nat)
deriving DecidableEq

/-- `CodebaseCache.is_stale`: the stored mtime is missing or differs
from the on-disk mtime `m` (a stat failure also counts as stale; files
present in the modelled directory listing always stat successfully). -/
def is_stale (c : CodebaseCache) (path : String) (m : Nat) : Bool :=
  !(lookupS c.mtimes path == some m)

/-- `CodebaseCache.get`: the cached content if not stale. -/
def cache_get (c : CodebaseCache) (path : String) (m : Nat) : Option String :=
  if is_stale c path m then none else lookupS c.cache path

/-- `CodebaseCache.update`: store content and mtime for a path. -/
def cache_update (c : CodebaseCache) (path content : String) (m : Nat) :
    CodebaseCache :=
  { cache := updMap c.cache path content, mtimes := updMap c.mtimes path m }

/-- One file of the scanned directory tree: its path, its content, and
its on-disk modification time. -/
structure DiskFile where
  path : String
  content : String
  mtime : Nat
deriving DecidableEq

/-- Result of one `scan_codebase` call: the returned snapshot, the
cache afterwards, and how many fresh file reads the scan performed
(the code's `scanned_count`). -/
structure ScanResult where
  fileMap : List (String × String)
  cache : CodebaseCache
  freshReads : Nat
deriving DecidableEq

/-- `scan_codebase` (`src/cli.py`): walk the directory listing in
order; skip files rejected by the filter (`should_scan_file`); for
each remaining file take the cached content when the cache is valid,
otherwise read the file fresh and update the cache. -/
def scan_codebase : List DiskFile → (String → Bool) → CodebaseCache → ScanResult
  | [], _, c => ⟨[], c, 0⟩
  | f :: rest, flt, c =>
    if flt f.path then
      match cache_get c f.path f.mtime with
      | some content =>
          let r := scan_codebase rest flt c
          ⟨(f.path, content) :: r.fileMap, r.cache, r.freshReads⟩
      | none =>
          let r := scan_codebase rest flt (cache_update c f.path f.content f.mtime)
          ⟨(f.path, f.content) :: r.fileMap, r.cache, r.freshReads + 1⟩
    else scan_codebase rest flt c

/-- Change the modification time of the file at path `p` (the effect
of touching exactly that file between two scans). -/
def touchFile (disk : List DiskFile) (p : String) (m : Nat) : List DiskFile :=
  disk.map fun f => if f.path = p then ⟨f.path, f.content, m⟩ else f

/-! ## `src/outline.py` -/

/-- The JSON documents exchanged with `json.dump` / `json.load`.  The
outline code produces and consumes only strings, arrays and objects;
the remaining JSON scalars are collapsed into `other`, which
`from_dict` treats as malformed where a specific shape is required. -/
inductive Json where
  | str (s : String)
  | arr (elems : List Json)
  | obj (fields : List (String × Json))
  | other

/-- Python `dict` lookup on a decoded JSON object (`data["title"]`,
`data.get(...)`). -/
def jlookup : List (String × Json) → String → Option Json
  | [], _ => none
  | (k, v) :: rest, key => if k = key then some v else jlookup rest key

/-- `OutlineNode` (`src/outline.py`): a task title, free-text content,
and the ordered children. -/
inductive OutlineNode where
  | node (title : String) (content : String) (children : List OutlineNode)

/-- `OutlineNode.title`. -/
def OutlineNode.title : OutlineNode → String
  | .node t _ _ => t

mutual

/-- `OutlineNode.to_dict` (`src/outline.py`). -/
def to_dict : OutlineNode → Json
  | .node t c children => .obj [("title", .str t), ("content", .str c),
      ("children", .arr (toDictList children))]

/-- The list comprehension `to_dict` maps over the children. -/
def toDictList : List OutlineNode → List Json
  | [] => []
  | n :: ns => to_dict n :: toDictList ns

end

theorem jlookup_sizeOf {kvs : List (String × Json)} {k : String} {v : Json}
    (h : jlookup kvs k = some v) : sizeOf v < sizeOf kvs := by
  induction kvs with
  | nil => simp [jlookup] at h
  | cons hd tl ih =>
      obtain ⟨k1, v1⟩ := hd
      by_cases hk : k1 = k
      · simp [jlookup, hk] at h
        subst h
        simp
        omega
      · simp [jlookup, hk] at h
        have := ih h
        simp
        omega

/-- The `OutlineNode(data["title"], data.get("content", ""), children)`
constructor call of `from_dict`: `none` models a `KeyError` on a
missing `"title"`.  A document whose `"title"` or `"content"` value is
not a string would make Python build a type-confused node that falls
outside the `OutlineNode` data model; such documents are mapped to the
error case as well (they are unreachable from `to_dict` output). -/
def nodeFields (kvs : List (String × Json)) (children : List OutlineNode) :
    Option OutlineNode :=
  match jlookup kvs "title", jlookup kvs "content" with
  | some (Json.str t), some (Json.str c) => some (.node t c children)
  | some (Json.str t), none => some (.node t "" children)
  | _, _ => none

mutual

/-- `OutlineNode.from_dict` (`src/outline.py`): rebuild a node from a
decoded JSON document; `none` models an exception escaping the call.
The children are decoded first, matching the Python evaluation order;
a missing `"children"` key defaults to `[]`; a `"children"` value that
is not an array makes the list comprehension raise (iterating an empty
string is the one exception: it yields no children). -/
def from_dict (j : Json) : Option OutlineNode :=
  match j with
  | Json.obj kvs =>
      match h : jlookup kvs "children" with
      | some (Json.arr l) =>
          match fromDictList l with
          | none => none
          | some children => nodeFields kvs children
      | none => nodeFields kvs []
      | some (Json.str s) => if s = "" then nodeFields kvs [] else none
      | some _ => none
  | _ => none
termination_by sizeOf j
decreasing_by
  have := jlookup_sizeOf h
  simp at this ⊢ <;> omega

/-- The list comprehension of `from_dict` over the children array. -/
def fromDictList (l : List Json) : Option (List OutlineNode) :=
  match l with
  | [] => some []
  | j :: js =>
      match from_dict j, fromDictList js with
      | some n, some ns => some (n :: ns)
      | _, _ => none
termination_by sizeOf l
decreasing_by
  all_goals (simp <;> omega)

end

/-- The synthetic root `load_outline_from_file` falls back to. -/
def defaultOutlineRoot : OutlineNode := .node "Root Task: Start coding session" "" []

/-- `save_outline_to_file` (`src/outline.py`): serialize the tree and
write the JSON document at `filepath` (the stored value models the
document `json.dump` writes and `json.load` recovers). -/
def save_outline_to_file (store : List (String × Json)) (root : OutlineNode)
    (filepath : String) : List (String × Json) :=
  updMap store filepath (to_dict root)

/-- `load_outline_from_file` (`src/outline.py`): read and decode the
document at `filepath`; a missing file or any decoding error yields
the default root. -/
def load_outline_from_file (store : List (String × Json)) (filepath : String) :
    OutlineNode :=
  match lookupS store filepath with
  | none => defaultOutlineRoot
  | some j =>
      match from_dict j with
      | some root => root
      | none => defaultOutlineRoot

/-! ## General lemmas about the map and string helpers -/

theorem lookupS_updMap_self {α : Type} (l : List (String × α)) (k : String) (v : α) :
    lookupS (updMap l k v) k = some v := by
  induction l with
  | nil => simp [updMap, lookupS]
  | cons hd tl ih =>
      obtain ⟨k1, v1⟩ := hd
      by_cases h : k1 = k <;> simp [updMap, lookupS, h, ih]

theorem lookupS_updMap_ne {α : Type} (l : List (String × α)) (k k2 : String) (v : α)
    (h : k2 ≠ k) : lookupS (updMap l k v) k2 = lookupS l k2 := by
  have h2 : k ≠ k2 := fun hh => h hh.symm
  induction l with
  | nil => simp [updMap, lookupS, h2]
  | cons hd tl ih =>
      obtain ⟨k1, v1⟩ := hd
      by_cases h1 : k1 = k
      · subst h1
        simp [updMap, lookupS, h2]
      · simp [updMap, lookupS, h1, ih]

theorem updMap_updMap_self {α : Type} (l : List (String × α)) (k : String) (v w : α) :
    updMap (updMap l k v) k w = updMap l k w := by
  induction l with
  | nil => simp [updMap]
  | cons hd tl ih =>
      obtain ⟨k1, v1⟩ := hd
      by_cases h : k1 = k <;> simp [updMap, h, ih]

theorem string_ne_append_bak (s : String) : s ≠ s ++ ".bak" := by
  intro h
  have hlen := congrArg (fun t : String => t.data.length) h
  simp [String.data_append] at hlen

theorem findIdxS_none_iff {α : Type} (p : α → Bool) (l : List α) :
    findIdxS p l = none ↔ ∀ x ∈ l, p x = false := by
  induction l with
  | nil => simp [findIdxS]
  | cons x rest ih =>
      by_cases h : p x <;> simp [findIdxS, h, ih]

theorem findIdxS_some_mem {α : Type} {p : α → Bool} {l : List α} {i : Nat}
    (h : findIdxS p l = some i) : ∃ x ∈ l, p x = true := by
  induction l generalizing i with
  | nil => simp [findIdxS] at h
  | cons x rest ih =>
      by_cases hx : p x
      · exact ⟨x, by simp, hx⟩
      · simp [findIdxS, hx] at h
        obtain ⟨j, hj, _⟩ := h
        obtain ⟨y, hy, hpy⟩ := ih hj
        exact ⟨y, by simp [hy], hpy⟩

/-! ## Claim C1 — editing a missing path -/

/-- Claim C1, counterexample.  The claim states that applying an edit
to a path at which no file exists succeeds by creating the file.  On
the code, `apply_edit` refuses such a path: it prints
`[ERROR] File does not exist`, returns `False`, creates nothing and
makes no backup. -/
theorem apply_edit_missing_path_counterexample :
    (apply_edit ⟨[], [], []⟩ "new.txt" "hello").2 = false ∧
    (apply_edit ⟨[], [], []⟩ "new.txt" "hello").1 = ⟨[], [], []⟩ ∧
    lookupS (apply_edit ⟨[], [], []⟩ "new.txt" "hello").1.files "new.txt" = none := by
  decide

/-- Claim C1, amended: for every path at which no file currently
exists and every content string, `apply_edit` fails — it returns
failure, writes nothing, and attempts no backup (the filesystem is
returned unchanged). -/
theorem apply_edit_missing_path_fails (fs : FS) (filepath content : String)
    (h : lookupS fs.files filepath = none) :
    apply_edit fs filepath content = (fs, false) := by
  simp [apply_edit, h]

/-- Witness for `apply_edit_missing_path_fails` at a concrete state. -/
theorem apply_edit_missing_path_fails_witness :
    apply_edit ⟨[("other.txt", "x")], [], []⟩ "new.txt" "hello"
      = (⟨[("other.txt", "x")], [], []⟩, false) :=
  apply_edit_missing_path_fails ⟨[("other.txt", "x")], [], []⟩ "new.txt" "hello" (by decide)

/-! ## Claim C3 — editing an existing file backs it up, then overwrites it -/

/-- Claim C3, counterexample.  The claim states unconditionally that
whenever apply succeeds on an existing file with content `A`,
`<path>.bak` contains `A` afterwards.  `backup_file` swallows every
exception, so `apply_edit` can succeed although the backup copy failed
(for instance, a writable file in a directory where `<path>.bak`
cannot be created): afterwards the file holds the new content but
`<path>.bak` does not hold the old one. -/
theorem apply_edit_backup_failure_counterexample :
    (apply_edit ⟨[("a.txt", "A")], ["a.txt.bak"], []⟩ "a.txt" "B").2 = true ∧
    lookupS (apply_edit ⟨[("a.txt", "A")], ["a.txt.bak"], []⟩ "a.txt" "B").1.files
      "a.txt" = some "B" ∧
    lookupS (apply_edit ⟨[("a.txt", "A")], ["a.txt.bak"], []⟩ "a.txt" "B").1.files
      "a.txt.bak" ≠ some "A" := by
  decide

/-- Claim C3, amended: if a file exists at `path` with content `A` and
`apply_edit` with proposed content `B` succeeds, afterwards the file
at `path` contains `B`; whenever the backup copy itself did not fail,
`path ++ ".bak"` contains the old content `A` (the backup is taken
before the write, which is why it holds `A` and not `B`); and a backup
failure does not block the write: when the target itself is writable,
`apply_edit` succeeds whether or not the backup copy fails. -/
theorem apply_edit_existing_writes_and_backs_up (fs : FS) (path A B : String)
    (hA : lookupS fs.files path = some A) :
    ((apply_edit fs path B).2 = true →
      lookupS (apply_edit fs path B).1.files path = some B) ∧
    ((path ++ ".bak") ∉ fs.copyFail → (apply_edit fs path B).2 = true →
      lookupS (apply_edit fs path B).1.files (path ++ ".bak") = some A) ∧
    (path ∉ fs.writeFail → (apply_edit fs path B).2 = true) := by
  have hbakne : path ≠ path ++ ".bak" := string_ne_append_bak path
  by_cases hcf : (path ++ ".bak") ∈ fs.copyFail
  · have hbf : backup_file fs path = fs := by simp [backup_file, hA, hcf]
    by_cases hwf : path ∈ fs.writeFail
    · refine ⟨?_, ?_, ?_⟩
      · intro hok
        simp [apply_edit, hA, hbf, hwf] at hok
      · intro hc
        exact absurd hcf hc
      · intro hw
        exact absurd hwf hw
    · refine ⟨?_, ?_, ?_⟩
      · intro _
        simp [apply_edit, hA, hbf, hwf, lookupS_updMap_self]
      · intro hc
        exact absurd hcf hc
      · intro _
        simp [apply_edit, hA, hbf, hwf]
  · have hbf : backup_file fs path
        = { fs with files := updMap fs.files (path ++ ".bak") A } := by
      simp [backup_file, hA, hcf]
    by_cases hwf : path ∈ fs.writeFail
    · refine ⟨?_, ?_, ?_⟩
      · intro hok
        simp [apply_edit, hA, hbf, hwf] at hok
      · intro _ hok
        simp [apply_edit, hA, hbf, hwf] at hok
      · intro hw
        exact absurd hwf hw
    · refine ⟨?_, ?_, ?_⟩
      · intro _
        simp [apply_edit, hA, hbf, hwf, lookupS_updMap_self]
      · intro _ _
        simp only [apply_edit, hA, hbf]
        simp only [hwf, if_false]
        rw [lookupS_updMap_ne _ _ _ _ (fun hh => hbakne hh.symm)]
        exact lookupS_updMap_self _ _ _
      · intro _
        simp [apply_edit, hA, hbf, hwf]

/-- Witness for `apply_edit_existing_writes_and_backs_up`: at a state
with a working backup destination the file is overwritten and the
backup holds the old content; at a state where only the backup copy
fails the write still succeeds. -/
theorem apply_edit_existing_writes_and_backs_up_witness :
    lookupS (apply_edit ⟨[("a.txt", "old")], [], []⟩ "a.txt" "new").1.files "a.txt"
      = some "new" ∧
    lookupS (apply_edit ⟨[("a.txt", "old")], [], []⟩ "a.txt" "new").1.files
      ("a.txt" ++ ".bak") = some "old" ∧
    (apply_edit ⟨[("b.txt", "old")], ["b.txt.bak"], []⟩ "b.txt" "new").2 = true := by
  have h1 := apply_edit_existing_writes_and_backs_up ⟨[("a.txt", "old")], [], []⟩
    "a.txt" "old" "new" (by decide)
  have h2 := apply_edit_existing_writes_and_backs_up
    ⟨[("b.txt", "old")], ["b.txt.bak"], []⟩ "b.txt" "old" "new" (by decide)
  exact ⟨h1.1 (by decide), h1.2.1 (by decide) (by decide), h2.2.2 (by decide)⟩

/-! ## Claim C6 — run result versus exit code and launch failure -/

/-- Claim C6, counterexample.  The claim states that any failure to
launch is reported as a failure result rather than as an unhandled
exception.  `run_shell_command` only catches `CalledProcessError`, so
an OS-level launch failure escapes as an exception: the call produces
no boolean result at all. -/
theorem run_shell_command_launch_exception :
    run_shell_command (.launchFailed "no shell") = .error "no shell" ∧
    run_shell_command (.launchFailed "no shell") ≠ .ok true ∧
    run_shell_command (.launchFailed "no shell") ≠ .ok false := by
  decide

/-- Claim C6, amended: the Run Executor reports success exactly when
the subprocess exits with code zero, and reports any non-zero exit
code as a failure result; an OS-level failure to launch the shell,
however, propagates out of `run_shell_command` as an exception (it is
handled only by the orchestrator's generic handler, not reported as a
result of the executor). -/
theorem run_shell_command_exit_code_result (code : Nat) (msg : String) :
    run_shell_command (.exited code) = .ok (decide (code = 0)) ∧
    run_shell_command (.launchFailed msg) = .error msg := by
  constructor
  · by_cases h : code = 0 <;> simp [run_shell_command, h]
  · rfl

/-! ## Claims C5 and C10 — path validation in the edit handler -/

theorem startsParentSeg_dots {l : List Char} (h : startsParentSeg l = true) :
    isPrefixCharList ['.', '.'] l = true := by
  unfold startsParentSeg at h
  split at h
  · simp [isPrefixCharList]
  · simp [isPrefixCharList]
  · exact absurd h (by simp)

theorem parentSeg_isSubstr {l : List Char} {b : Bool}
    (h : hasParentSegmentAux b l = true) : isSubstrList ['.', '.'] l = true := by
  induction l generalizing b with
  | nil => simp [hasParentSegmentAux] at h
  | cons c rest ih =>
      simp only [hasParentSegmentAux, Bool.or_eq_true, Bool.and_eq_true] at h
      rcases h with ⟨_, hseg⟩ | htail
      · simp [isSubstrList, startsParentSeg_dots hseg]
      · simp [isSubstrList, ih htail]

/-- Claim C5: an edit whose path is empty, begins with the absolute
marker `/`, or contains a parent-directory traversal segment (a `..`
path component, as in `"../../etc/passwd"`) is rejected by
`handle_edit` before any read or write of the target: the handler
returns failure, the filesystem is unchanged, and the list of paths
read is empty. -/
theorem handle_edit_rejects_unsafe_path (fs : FS) (filepath raw_content : String)
    (confirm : Bool)
    (h : filepath = "" ∨ isPrefixCharList ['/'] filepath.data = true ∨
         hasParentSegment filepath.data = true) :
    handle_edit fs filepath raw_content confirm = (false, fs, []) := by
  rcases h with h | h | h
  · subst h
    simp [handle_edit]
  · simp [handle_edit, h]
  · simp [handle_edit, parentSeg_isSubstr h]

/-- Witness for `handle_edit_rejects_unsafe_path` at the spec's
example path. -/
theorem handle_edit_rejects_unsafe_path_witness :
    handle_edit ⟨[("etc/passwd", "root")], [], []⟩ "../../etc/passwd" "data" true
      = (false, ⟨[("etc/passwd", "root")], [], []⟩, []) :=
  handle_edit_rejects_unsafe_path ⟨[("etc/passwd", "root")], [], []⟩
    "../../etc/passwd" "data" true (Or.inr (Or.inr (by decide)))

/-- Claim C10: the validation is substring-based (`'..' in filepath`),
so any path containing the two characters `..` anywhere — including
names such as `"notes..txt"` that contain no parent-directory
traversal segment — is rejected by `handle_edit`, with failure
returned, no read performed, and nothing written. -/
theorem handle_edit_rejects_dotdot_substring (fs : FS) (filepath raw_content : String)
    (confirm : Bool)
    (h : isSubstrList ['.', '.'] filepath.data = true) :
    handle_edit fs filepath raw_content confirm = (false, fs, []) := by
  simp [handle_edit, h]

/-- Witness for `handle_edit_rejects_dotdot_substring` on a filename
with no traversal segment. -/
theorem handle_edit_rejects_dotdot_substring_witness :
    handle_edit ⟨[("notes..txt", "n")], [], []⟩ "notes..txt" "data" true
      = (false, ⟨[("notes..txt", "n")], [], []⟩, []) :=
  handle_edit_rejects_dotdot_substring ⟨[("notes..txt", "n")], [], []⟩
    "notes..txt" "data" true (by decide)

/-! ## Claim C7 — the extra confirmation gate on dangerous commands -/

/-- Claim C7: a command containing the substring `"rm -rf"` (in any
casing, with any surrounding text) triggers the extra confirmation
gate of `handle_run`: when the extra confirmation is refused, the
command is not executed and the handler returns failure; and whenever
the command does execute, both the extra confirmation and the normal
confirmation were given. -/
theorem handle_run_extra_gate_on_rm_rf (command : String)
    (confirm_danger confirm_run : Bool) (proc : ProcOutcome)
    (h : isSubstrList ("rm -rf").data (lowerChars command.data) = true) :
    handle_run command false confirm_run proc = ⟨false, .ok false⟩ ∧
    ((handle_run command confirm_danger confirm_run proc).executed = true →
      confirm_danger = true ∧ confirm_run = true) := by
  have hany : (dangerous_patterns.any fun pat =>
      isSubstrList pat.data (lowerChars command.data)) = true := by
    simp [dangerous_patterns]
    exact Or.inl h
  constructor
  · simp [handle_run, hany]
  · intro hex
    cases confirm_danger with
    | false =>
        simp [handle_run, hany] at hex
    | true =>
        cases confirm_run with
        | false => simp [handle_run, hany] at hex
        | true => exact ⟨rfl, rfl⟩

/-- Witness for `handle_run_extra_gate_on_rm_rf` on a mixed-case
command with surrounding text. -/
theorem handle_run_extra_gate_on_rm_rf_witness :
    handle_run "sudo RM -rF /tmp/x" false true (.exited 0) = ⟨false, .ok false⟩ ∧
    ((handle_run "sudo RM -rF /tmp/x" true true (.exited 0)).executed = true →
      True = True ∧ True = True) := by
  have h := handle_run_extra_gate_on_rm_rf "sudo RM -rF /tmp/x" true true
    (.exited 0) (by decide)
  exact ⟨h.1, fun _ => ⟨rfl, rfl⟩⟩

/-! ## Claim C2 — marker detection and precedence in the parser -/

/-- Claim C2, counterexample.  The claim states that the parser
recognizes a marker on any line whose *trimmed* form begins with it.
The code checks each line untrimmed (only the response as a whole is
stripped): a response whose second line is `"  edit: a.txt"` parses to
no action, although that line's trimmed form begins with `edit:`. -/
theorem parse_response_trimmed_marker_counterexample :
    parse_response "x\n  edit: a.txt" = none ∧
    (pyLines "x\n  edit: a.txt").any
      (fun l => lineMatches "edit:".data (pyStrip l)) = true := by
  decide

/-- Claim C2, amended: the parser produces `none` exactly when no line
begins (case-insensitively, the line taken as is — only the response
as a whole is stripped before splitting) with one of the literal
markers `edit:`, `run:`, `outline:`; when marker lines of more than
one type are present the action follows the precedence outline over
edit over run; and the parse is a pure function of the text (it is a
Lean function of the response string alone). -/
theorem parse_response_marker_spec (response : String) :
    (parse_response response = none ↔
      ∀ l ∈ pyLines response,
        lineMatches "outline:".data l = false ∧
        lineMatches "edit:".data l = false ∧
        lineMatches "run:".data l = false) ∧
    ((∃ l ∈ pyLines response, lineMatches "outline:".data l = true) →
      ∃ ts, parse_response response = some (ParsedAction.outline ts)) ∧
    ((∀ l ∈ pyLines response, lineMatches "outline:".data l = false) →
     (∃ l ∈ pyLines response, lineMatches "edit:".data l = true) →
      ∃ p c, parse_response response = some (ParsedAction.edit p c)) ∧
    ((∀ l ∈ pyLines response, lineMatches "outline:".data l = false) →
     (∀ l ∈ pyLines response, lineMatches "edit:".data l = false) →
     (∃ l ∈ pyLines response, lineMatches "run:".data l = true) →
      ∃ cmd, parse_response response = some (ParsedAction.run cmd)) := by
  have hOn := findIdxS_none_iff (lineMatches "outline:".data) (pyLines response)
  have hEn := findIdxS_none_iff (lineMatches "edit:".data) (pyLines response)
  have hRn := findIdxS_none_iff (lineMatches "run:".data) (pyLines response)
  have exSome : ∀ m : List Char, (∃ l ∈ pyLines response, lineMatches m l = true) →
      ∃ i, findIdxS (lineMatches m) (pyLines response) = some i := by
    intro m hex
    cases h : findIdxS (lineMatches m) (pyLines response) with
    | none =>
        obtain ⟨l, hl, hm⟩ := hex
        have hfalse := (findIdxS_none_iff _ _).mp h l hl
        rw [hm] at hfalse
        exact absurd hfalse (by simp)
    | some i => exact ⟨i, rfl⟩
  refine ⟨⟨?_, ?_⟩, ?_, ?_, ?_⟩
  · intro hnone
    have h1 : findIdxS (lineMatches "outline:".data) (pyLines response) = none := by
      cases h : findIdxS (lineMatches "outline:".data) (pyLines response) with
      | none => rfl
      | some i => simp [parse_response, h] at hnone
    have h2 : findIdxS (lineMatches "edit:".data) (pyLines response) = none := by
      cases h : findIdxS (lineMatches "edit:".data) (pyLines response) with
      | none => rfl
      | some i => simp [parse_response, h1, h] at hnone
    have h3 : findIdxS (lineMatches "run:".data) (pyLines response) = none := by
      cases h : findIdxS (lineMatches "run:".data) (pyLines response) with
      | none => rfl
      | some i => simp [parse_response, h1, h2, h] at hnone
    exact fun l hl => ⟨hOn.mp h1 l hl, hEn.mp h2 l hl, hRn.mp h3 l hl⟩
  · intro hall
    have h1 := hOn.mpr fun l hl => (hall l hl).1
    have h2 := hEn.mpr fun l hl => (hall l hl).2.1
    have h3 := hRn.mpr fun l hl => (hall l hl).2.2
    simp [parse_response, h1, h2, h3]
  · intro hex
    obtain ⟨i, hi⟩ := exSome _ hex
    simp only [parse_response, hi]
    exact ⟨_, rfl⟩
  · intro hallO hexE
    have h1 := hOn.mpr hallO
    obtain ⟨i, hi⟩ := exSome _ hexE
    simp only [parse_response, h1, hi]
    exact ⟨_, _, rfl⟩
  · intro hallO hallE hexR
    have h1 := hOn.mpr hallO
    have h2 := hEn.mpr hallE
    obtain ⟨i, hi⟩ := exSome _ hexR
    simp only [parse_response, h1, h2, hi]
    exact ⟨_, rfl⟩

/-- Witness for `parse_response_marker_spec`: the precedence conjunct
at a response containing both an outline and an edit marker, and the
none conjunct at a marker-free response. -/
theorem parse_response_marker_spec_witness :
    (∃ ts, parse_response "outline:\nedit: a.txt\n- t1"
        = some (ParsedAction.outline ts)) ∧
    parse_response "no marker here" = none := by
  have h1 := (parse_response_marker_spec "outline:\nedit: a.txt\n- t1").2.1
  have h2 := (parse_response_marker_spec "no marker here").1.mpr
  exact ⟨h1 (by decide), h2 (by decide)⟩

/-! ## Claim C4 — fence sanitization -/

theorem takeTripleBq_bq3 (r : List Char) : takeTripleBq (bq :: bq :: bq :: r) = some r := by
  simp [takeTripleBq]

theorem takeTripleBq_none {c : Char} (rest : List Char) (hc : c ≠ bq) :
    takeTripleBq (c :: rest) = none := by
  rcases rest with _ | ⟨x, _ | ⟨y, t⟩⟩ <;> simp [takeTripleBq, hc]

theorem fenceSubF_emit {c : Char} (hc : c ≠ bq) (fuel : Nat) (b : Bool)
    (rest : List Char) :
    fenceSubF (fuel + 1) b (c :: rest) = c :: fenceSubF fuel (c = '\n') rest := by
  simp [fenceSubF, takeTripleBq_none rest hc]

theorem matchLangNewline_letters {lang : List Char}
    (hl : ∀ c ∈ lang, isAsciiLetter c = true) (r : List Char) :
    matchLangNewline (lang ++ '\n' :: r) = some r := by
  induction lang with
  | nil => simp [matchLangNewline]
  | cons c cs ih =>
      have hc := hl c (by simp)
      have hcn : ¬(c = '\n') := by
        intro hcontra
        rw [hcontra] at hc
        exact absurd hc (by decide)
      simp [matchLangNewline, hcn, hc, ih fun x hx => hl x (by simp [hx])]

theorem fenceSubF_clean (bs : List Char) (hbs : ∀ c ∈ bs, c ≠ bq) :
    ∀ fuel (b : Bool) (suffix : List Char), bs.length ≤ fuel →
      fenceSubF fuel b (bs ++ suffix)
        = bs ++ fenceSubF (fuel - bs.length) (lineStartAfter bs b) suffix := by
  induction bs with
  | nil => intro fuel b suffix _; simp [lineStartAfter]
  | cons c cs ih =>
      intro fuel b suffix h
      cases fuel with
      | zero => simp at h
      | succ n =>
          rw [List.cons_append, fenceSubF_emit (hbs c (by simp)) n b (cs ++ suffix),
            ih (fun x hx => hbs x (by simp [hx])) n (c = '\n') suffix (by simp at h; omega)]
          simp [lineStartAfter, Nat.succ_sub_succ]

theorem fenceSubF_trailing (fuel : Nat) (b : Bool) (h : 1 ≤ fuel) :
    fenceSubF fuel b [bq, bq, bq] = [] := by
  cases fuel with
  | zero => omega
  | succ n => simp [fenceSubF, takeTripleBq_bq3, matchLangNewline]

theorem lineStartAfter_concat (l : List Char) (c : Char) (b : Bool) :
    lineStartAfter (l ++ [c]) b = decide (c = '\n') := by
  induction l generalizing b with
  | nil => simp [lineStartAfter]
  | cons x xs ih => simp [lineStartAfter, ih]

theorem pyStrip_concat_space (l : List Char) {c : Char} (hc : pyIsSpace c = true) :
    pyStrip (l ++ [c]) = pyStrip l := by
  simp [pyStrip, List.dropWhile_cons, hc]

/-- Claim C4, counterexample.  The claim states that sanitization
removes at most one leading and one trailing fence-marker line,
leaving all other lines unchanged.  The regex substitution is applied
with `re.MULTILINE` to every line: in `"a\n```\nb"` the fence line is
neither leading nor trailing, and there are no surrounding blank
lines, so under the claim the content would be returned unchanged —
but the code removes the interior fence line. -/
theorem sanitize_removes_interior_fence :
    sanitize_code_content "a\n```\nb" = "a\nb" ∧
    sanitize_code_content "a\n```\nb" ≠ "a\n```\nb" := by
  constructor
  · decide
  · decide

/-- Claim C4, amended: the substitution removes *every* line-leading
fence marker line (three backquotes, an optional alphabetic language
tag, and the line's newline) and *every* line-trailing triple
backquote anywhere in the content — not only a first and a last one —
and then strips surrounding whitespace.  For a content consisting of a
single fenced block (an alphabetic language tag, a fence-free body) the
result is the body with surrounding whitespace trimmed; in particular
sanitizing `"```py\nprint(1)\n```"` yields exactly `"print(1)"`. -/
theorem sanitize_single_fenced_block (lang body : String)
    (hlang : ∀ c ∈ lang.data, isAsciiLetter c = true)
    (hbody : ∀ c ∈ body.data, c ≠ bq) :
    sanitize_code_content ("```" ++ lang ++ "\n" ++ body ++ "\n```") = pyStripStr body := by
  have hdata : ("```" ++ lang ++ "\n" ++ body ++ "\n```" : String).data
      = bq :: bq :: bq :: (lang.data ++ '\n' :: ((body.data ++ ['\n']) ++ [bq, bq, bq])) := by
    simp [String.data_append]
    decide
  rw [sanitize_code_content, hdata]
  have hlen : (bq :: bq :: bq :: (lang.data ++ '\n' ::
      ((body.data ++ ['\n']) ++ [bq, bq, bq]))).length
      = lang.data.length + body.data.length + 8 := by
    simp
    omega
  rw [hlen]
  have hstep1 : fenceSubF (lang.data.length + body.data.length + 8) true
      (bq :: bq :: bq :: (lang.data ++ '\n' :: ((body.data ++ ['\n']) ++ [bq, bq, bq])))
      = fenceSubF (lang.data.length + body.data.length + 7) true
          ((body.data ++ ['\n']) ++ [bq, bq, bq]) := by
    have harith : lang.data.length + body.data.length + 8
        = (lang.data.length + body.data.length + 7) + 1 := by omega
    rw [harith]
    simp only [fenceSubF, takeTripleBq_bq3, if_true,
      matchLangNewline_letters hlang ((body.data ++ ['\n']) ++ [bq, bq, bq])]
  rw [hstep1]
  have hnobq : ∀ c ∈ body.data ++ ['\n'], c ≠ bq := by
    intro c hcmem
    rcases List.mem_append.mp hcmem with hcm | hcm
    · exact hbody c hcm
    · simp at hcm
      rw [hcm]
      decide
  rw [fenceSubF_clean (body.data ++ ['\n']) hnobq
    (lang.data.length + body.data.length + 7) true [bq, bq, bq] (by simp; omega)]
  rw [fenceSubF_trailing _ _ (by simp; omega)]
  rw [List.append_nil]
  rw [pyStrip_concat_space body.data (by decide)]
  rfl

/-- Witness for `sanitize_single_fenced_block` at the spec's example. -/
theorem sanitize_single_fenced_block_witness :
    sanitize_code_content "```py\nprint(1)\n```" = "print(1)" := by
  have h := sanitize_single_fenced_block "py" "print(1)" (by decide) (by decide)
  have heq : ("```" ++ "py" ++ "\n" ++ "print(1)" ++ "\n```" : String)
      = "```py\nprint(1)\n```" := by decide
  have hstrip : pyStripStr "print(1)" = "print(1)" := by decide
  rw [heq, hstrip] at h
  exact h

/-! ## Claim C8 — outline save/load round trip -/

mutual

theorem from_to_dict (n : OutlineNode) : from_dict (to_dict n) = some n := by
  cases n with
  | node t c children =>
      have hch : jlookup [("title", Json.str t), ("content", Json.str c),
          ("children", Json.arr (toDictList children))] "children"
          = some (Json.arr (toDictList children)) := by
        simp [jlookup]
      have hrec := fromList_to_dict children
      simp [to_dict, from_dict, hch, hrec, nodeFields, jlookup]

theorem fromList_to_dict (l : List OutlineNode) :
    fromDictList (toDictList l) = some l := by
  cases l with
  | nil => simp [toDictList, fromDictList]
  | cons n ns =>
      have h1 := from_to_dict n
      have h2 := fromList_to_dict ns
      simp [toDictList, fromDictList, h1, h2]

end

/-- Claim C8: saving a tree and re-loading it from the same path
yields a tree structurally equal to the original (same titles,
contents and children order at every node, which is what equality of
`OutlineNode` values states), and `save(load(path), path)` is
idempotent: repeating it leaves the stored document unchanged and
re-loading yields the same tree. -/
theorem outline_save_load_roundtrip (store : List (String × Json)) (p : String)
    (root : OutlineNode) :
    load_outline_from_file (save_outline_to_file store root p) p = root ∧
    save_outline_to_file (save_outline_to_file store (load_outline_from_file store p) p)
        (load_outline_from_file
          (save_outline_to_file store (load_outline_from_file store p) p) p) p
      = save_outline_to_file store (load_outline_from_file store p) p ∧
    load_outline_from_file
        (save_outline_to_file store (load_outline_from_file store p) p) p
      = load_outline_from_file store p := by
  have hround : ∀ r : OutlineNode,
      load_outline_from_file (save_outline_to_file store r p) p = r := by
    intro r
    simp [load_outline_from_file, save_outline_to_file, lookupS_updMap_self,
      from_to_dict]
  refine ⟨hround root, ?_, hround _⟩
  rw [hround, save_outline_to_file, save_outline_to_file, updMap_updMap_self]

/-! ## Claim C9 — scan caching -/

theorem cache_get_of_lookups {c : CodebaseCache} {path : String} {m : Nat} {s : String}
    (hm : lookupS c.mtimes path = some m) (hc : lookupS c.cache path = some s) :
    cache_get c path m = some s := by
  simp [cache_get, is_stale, hm, hc]

theorem cache_get_some_elim {c : CodebaseCache} {path : String} {m : Nat} {s : String}
    (h : cache_get c path m = some s) :
    lookupS c.mtimes path = some m ∧ lookupS c.cache path = some s := by
  unfold cache_get is_stale at h
  by_cases hb : lookupS c.mtimes path = some m
  · simp [hb] at h
    exact ⟨hb, h⟩
  · simp [hb] at h

theorem cache_get_none_of_ne_mtime {c : CodebaseCache} {path : String} {m : Nat}
    (h : lookupS c.mtimes path ≠ some m) : cache_get c path m = none := by
  simp [cache_get, is_stale, h]

theorem scan_frame (disk : List DiskFile) (flt : String → Bool) (c : CodebaseCache)
    (p : String) (hp : p ∉ disk.map DiskFile.path) :
    lookupS (scan_codebase disk flt c).cache.cache p = lookupS c.cache p ∧
    lookupS (scan_codebase disk flt c).cache.mtimes p = lookupS c.mtimes p := by
  induction disk generalizing c with
  | nil => simp [scan_codebase]
  | cons f rest ih =>
      rw [List.map_cons] at hp
      have hp1 : p ≠ f.path := fun h => hp (by simp [h])
      have hp2 : p ∉ rest.map DiskFile.path := fun h => hp (by simp [h])
      by_cases hf : flt f.path
      · cases hg : cache_get c f.path f.mtime with
        | some content =>
            simp only [scan_codebase, hf, hg, if_true]
            exact ih c hp2
        | none =>
            simp only [scan_codebase, hf, hg, if_true]
            have hrec := ih (cache_update c f.path f.content f.mtime) hp2
            constructor
            · rw [hrec.1]
              exact lookupS_updMap_ne _ _ _ _ hp1
            · rw [hrec.2]
              exact lookupS_updMap_ne _ _ _ _ hp1
      · simp only [scan_codebase, hf, if_false]
        exact ih c hp2

theorem scan_twice_eq (disk : List DiskFile) (flt : String → Bool) (c : CodebaseCache)
    (hnd : (disk.map DiskFile.path).Nodup) :
    scan_codebase disk flt (scan_codebase disk flt c).cache
      = ⟨(scan_codebase disk flt c).fileMap, (scan_codebase disk flt c).cache, 0⟩ := by
  induction disk generalizing c with
  | nil => simp [scan_codebase]
  | cons f rest ih =>
      rw [List.map_cons, List.nodup_cons] at hnd
      obtain ⟨hfp, hnd2⟩ := hnd
      by_cases hf : flt f.path
      · cases hg : cache_get c f.path f.mtime with
        | some s =>
            obtain ⟨hm, hc⟩ := cache_get_some_elim hg
            simp only [scan_codebase, hf, hg, if_true]
            have hframe := scan_frame rest flt c f.path hfp
            have hget2 : cache_get (scan_codebase rest flt c).cache f.path f.mtime
                = some s := by
              apply cache_get_of_lookups
              · rw [hframe.2]; exact hm
              · rw [hframe.1]; exact hc
            simp only [scan_codebase, hf, hget2, if_true]
            rw [ih c hnd2]
        | none =>
            simp only [scan_codebase, hf, hg, if_true]
            have hframe := scan_frame rest flt
              (cache_update c f.path f.content f.mtime) f.path hfp
            have hget2 : cache_get
                (scan_codebase rest flt (cache_update c f.path f.content f.mtime)).cache
                f.path f.mtime = some f.content := by
              apply cache_get_of_lookups
              · rw [hframe.2]; exact lookupS_updMap_self _ _ _
              · rw [hframe.1]; exact lookupS_updMap_self _ _ _
            simp only [scan_codebase, hf, hget2, if_true]
            rw [ih (cache_update c f.path f.content f.mtime) hnd2]
      · simp only [scan_codebase, hf, if_false]
        exact ih c hnd2

theorem scan_sync (disk : List DiskFile) (flt : String → Bool) (c : CodebaseCache)
    (hnd : (disk.map DiskFile.path).Nodup) :
    ∀ f ∈ disk, flt f.path = true →
      lookupS (scan_codebase disk flt c).cache.mtimes f.path = some f.mtime ∧
      ∃ s, lookupS (scan_codebase disk flt c).cache.cache f.path = some s := by
  induction disk generalizing c with
  | nil => intro f hf; simp at hf
  | cons g rest ih =>
      rw [List.map_cons, List.nodup_cons] at hnd
      obtain ⟨hgp, hnd2⟩ := hnd
      intro f hfmem hflt
      rcases List.mem_cons.mp hfmem with hfg | hfr
      · subst hfg
        by_cases hgcase : flt f.path
        · cases hg : cache_get c f.path f.mtime with
          | some s =>
              obtain ⟨hm, hc⟩ := cache_get_some_elim hg
              simp only [scan_codebase, hgcase, hg, if_true]
              have hframe := scan_frame rest flt c f.path hgp
              rw [hframe.1, hframe.2]
              exact ⟨hm, s, hc⟩
          | none =>
              simp only [scan_codebase, hgcase, hg, if_true]
              have hframe := scan_frame rest flt
                (cache_update c f.path f.content f.mtime) f.path hgp
              rw [hframe.1, hframe.2]
              exact ⟨lookupS_updMap_self _ _ _, f.content, lookupS_updMap_self _ _ _⟩
        · rw [hflt] at hgcase
          exact absurd rfl hgcase
      · by_cases hgcase : flt g.path
        · cases hg : cache_get c g.path g.mtime with
          | some s =>
              simp only [scan_codebase, hgcase, hg, if_true]
              exact ih c hnd2 f hfr hflt
          | none =>
              simp only [scan_codebase, hgcase, hg, if_true]
              exact ih (cache_update c g.path g.content g.mtime) hnd2 f hfr hflt
        · simp only [scan_codebase, hgcase, if_false]
          exact ih c hnd2 f hfr hflt

theorem scan_synced_noop (disk : List DiskFile) (flt : String → Bool) (c : CodebaseCache)
    (hsync : ∀ f ∈ disk, flt f.path = true →
      lookupS c.mtimes f.path = some f.mtime ∧ ∃ s, lookupS c.cache f.path = some s) :
    (scan_codebase disk flt c).cache = c ∧ (scan_codebase disk flt c).freshReads = 0 := by
  induction disk with
  | nil => simp [scan_codebase]
  | cons f rest ih =>
      by_cases hf : flt f.path
      · obtain ⟨hm, s, hc⟩ := hsync f (by simp) hf
        have hg := cache_get_of_lookups hm hc
        simp only [scan_codebase, hf, hg, if_true]
        exact ih fun g hg1 hg2 => hsync g (by simp [hg1]) hg2
      · simp only [scan_codebase, hf, if_false]
        exact ih fun g hg1 hg2 => hsync g (by simp [hg1]) hg2

theorem touchFile_not_mem {disk : List DiskFile} {p : String} {m : Nat}
    (hp : p ∉ disk.map DiskFile.path) : touchFile disk p m = disk := by
  induction disk with
  | nil => rfl
  | cons f rest ih =>
      rw [List.map_cons] at hp
      have h1 : ¬(f.path = p) := fun h => hp (by simp [h])
      have h2 : p ∉ rest.map DiskFile.path := fun h => hp (by simp [h])
      rw [show touchFile (f :: rest) p m
            = (if f.path = p then ⟨f.path, f.content, m⟩ else f) :: touchFile rest p m
          from rfl,
        if_neg h1, ih h2]

theorem scan_touched_one (disk : List DiskFile) (flt : String → Bool) (c : CodebaseCache)
    (p : String) (m2 : Nat)
    (hnd : (disk.map DiskFile.path).Nodup)
    (hsync : ∀ f ∈ disk, flt f.path = true →
      lookupS c.mtimes f.path = some f.mtime ∧ ∃ s, lookupS c.cache f.path = some s)
    (hflt : flt p = true)
    (hm2 : lookupS c.mtimes p ≠ some m2)
    (hmem : p ∈ disk.map DiskFile.path) :
    (scan_codebase (touchFile disk p m2) flt c).freshReads = 1 := by
  induction disk generalizing c with
  | nil => simp at hmem
  | cons f rest ih =>
      rw [List.map_cons, List.nodup_cons] at hnd
      obtain ⟨hfp, hnd2⟩ := hnd
      by_cases hft : f.path = p
      · have hprest : p ∉ rest.map DiskFile.path := by rw [← hft]; exact hfp
        have htouch : touchFile (f :: rest) p m2
            = ⟨f.path, f.content, m2⟩ :: rest := by
          simp only [touchFile, List.map_cons, hft, if_true]
          have := touchFile_not_mem (m := m2) hprest
          simp only [touchFile] at this
          rw [this]
        rw [htouch]
        have hfltf : flt f.path = true := by rw [hft]; exact hflt
        have hstale : cache_get c f.path m2 = none := by
          apply cache_get_none_of_ne_mtime
          rw [hft]
          exact hm2
        simp only [scan_codebase, hfltf, hstale, if_true]
        have hnoop : (scan_codebase rest flt
            (cache_update c f.path f.content m2)).freshReads = 0 := by
          apply (scan_synced_noop rest flt _ ?_).2
          intro g hgmem hgflt
          have hgne : g.path ≠ f.path := by
            intro hcontra
            apply hprest
            rw [← hft, ← hcontra]
            exact List.mem_map_of_mem DiskFile.path hgmem
          obtain ⟨hm, s, hc⟩ := hsync g (by simp [hgmem]) hgflt
          refine ⟨?_, s, ?_⟩
          · simp only [cache_update]
            rw [lookupS_updMap_ne _ _ _ _ hgne]
            exact hm
          · simp only [cache_update]
            rw [lookupS_updMap_ne _ _ _ _ hgne]
            exact hc
        simp [hnoop]
      · have hmem2 : p ∈ rest.map DiskFile.path := by
          rw [List.map_cons] at hmem
          rcases List.mem_cons.mp hmem with h | h
          · exact absurd h.symm hft
          · exact h
        have htouch : touchFile (f :: rest) p m2 = f :: touchFile rest p m2 := by
          simp only [touchFile, List.map_cons, hft, if_false]
        rw [htouch]
        by_cases hf : flt f.path
        · obtain ⟨hm, s, hc⟩ := hsync f (by simp) hf
          have hg := cache_get_of_lookups hm hc
          simp only [scan_codebase, hf, hg, if_true]
          exact ih c hnd2 (fun g h1 h2 => hsync g (by simp [h1]) h2) hm2 hmem2
        · simp only [scan_codebase, hf, if_false]
          exact ih c hnd2 (fun g h1 h2 => hsync g (by simp [h1]) h2) hm2 hmem2

/-- Claim C9: for every cache state and directory listing with
distinct paths, scanning twice with no change between the calls
returns an identical snapshot and performs zero fresh reads on the
second scan (the cache is also left untouched); and changing exactly
one scanned file's modification time between the scans forces exactly
one fresh read on the next scan. -/
theorem scan_codebase_cache_correct (disk : List DiskFile) (flt : String → Bool)
    (c : CodebaseCache) (hnd : (disk.map DiskFile.path).Nodup) :
    (scan_codebase disk flt (scan_codebase disk flt c).cache
      = ⟨(scan_codebase disk flt c).fileMap, (scan_codebase disk flt c).cache, 0⟩) ∧
    ∀ p m2, flt p = true → p ∈ disk.map DiskFile.path →
      (∀ f ∈ disk, f.path = p → f.mtime ≠ m2) →
      (scan_codebase (touchFile disk p m2) flt
        (scan_codebase disk flt c).cache).freshReads = 1 := by
  refine ⟨scan_twice_eq disk flt c hnd, ?_⟩
  intro p m2 hflt hmem hne
  obtain ⟨f0, hf0mem, hf0p⟩ : ∃ f ∈ disk, f.path = p := by
    simpa using hmem
  have hsync := scan_sync disk flt c hnd
  have hm0 : lookupS (scan_codebase disk flt c).cache.mtimes p = some f0.mtime := by
    have h := (hsync f0 hf0mem (by rw [hf0p]; exact hflt)).1
    rwa [hf0p] at h
  apply scan_touched_one disk flt _ p m2 hnd hsync hflt ?_ hmem
  rw [hm0]
  intro hcontra
  have : f0.mtime = m2 := by injection hcontra
  exact hne f0 hf0mem hf0p this

/-- Witness for `scan_codebase_cache_correct` on a two-file tree. -/
theorem scan_codebase_cache_correct_witness :
    (scan_codebase [⟨"a.py", "x", 1⟩, ⟨"b.py", "y", 2⟩] (fun _ => true)
        (scan_codebase [⟨"a.py", "x", 1⟩, ⟨"b.py", "y", 2⟩] (fun _ => true)
          ⟨[], []⟩).cache
      = ⟨(scan_codebase [⟨"a.py", "x", 1⟩, ⟨"b.py", "y", 2⟩] (fun _ => true)
            ⟨[], []⟩).fileMap,
          (scan_codebase [⟨"a.py", "x", 1⟩, ⟨"b.py", "y", 2⟩] (fun _ => true)
            ⟨[], []⟩).cache, 0⟩) ∧
    (scan_codebase (touchFile [⟨"a.py", "x", 1⟩, ⟨"b.py", "y", 2⟩] "a.py" 9)
        (fun _ => true)
        (scan_codebase [⟨"a.py", "x", 1⟩, ⟨"b.py", "y", 2⟩] (fun _ => true)
          ⟨[], []⟩).cache).freshReads = 1 := by
  have h := scan_codebase_cache_correct [⟨"a.py", "x", 1⟩, ⟨"b.py", "y", 2⟩]
    (fun _ => true) ⟨[], []⟩ (by decide)
  exact ⟨h.1, h.2 "a.py" 9 rfl (by decide) (by decide)⟩
